import Mathlib

/-!
Verification of the skillmodels estimation engine against its specification.

The definitions below are shallow embeddings of functions from
`skillmodels/estimation/wa_functions.py`, `skillmodels/estimation/skill_model.py`
and `skillmodels/likelihood_function.py`.  Machine floats are modelled as
rationals where only field arithmetic occurs and as real numbers where
logarithms, exponentials or square roots occur.  A Python `raise` (or a failing
`assert`) is modelled as the `Except.error` case of an `Except` value, with the
error constructor named after the failure taxonomy of the design document.
-/

/-- Failure modes of the WA estimation path.  The failing `assert` in
`loadings_from_covs` is the underidentification failure of the design
document's error taxonomy. -/
inductive WAError where
  | underidentifiedModel : WAError
deriving DecidableEq

/-- Embedding of `wa_functions.loadings_from_covs`.  The data frame is
represented by its list of measurement columns together with the empirical
covariance function `cov` of the data; `load_norm` and `load_norm_val` are the
two entries of the `normalization` argument.  The function first checks that at
least three measurements are available and otherwise fails; on success it
returns, for every non-normalized measurement `m`, the average over all other
measurements `mp` (distinct from `m` and from the normalized one) of the ratio
`cov m mp / (load_norm_val * cov load_norm mp)`, exactly as the source loop
stores into `storage_df`. -/
def loadings_from_covs (measurements : List String) (cov : String → String → ℚ)
    (load_norm : String) (load_norm_val : ℚ) :
    Except WAError (List (String × ℚ)) :=
  if 3 ≤ measurements.length then
    Except.ok ((measurements.filter (fun m => m != load_norm)).map (fun m =>
      let estimates := (measurements.filter
          (fun mp => mp != m && mp != load_norm)).map
        (fun mp => cov m mp / (load_norm_val * cov load_norm mp))
      (m, estimates.sum / (estimates.length : ℚ))))
  else Except.error WAError.underidentifiedModel

/-- Claim C1: for every dataset of measurements of one factor in period 0 with
fewer than 3 measurement columns, `loadings_from_covs` fails with the
underidentification error instead of returning estimates. -/
theorem loadings_from_covs_underidentified
    (measurements : List String) (cov : String → String → ℚ)
    (load_norm : String) (load_norm_val : ℚ)
    (h : measurements.length < 3) :
    loadings_from_covs measurements cov load_norm load_norm_val
      = Except.error WAError.underidentifiedModel := by
  unfold loadings_from_covs
  rw [if_neg]
  omega

/-- Witness for claim C1: a factor with exactly two measurements in the first
period raises the underidentification error. -/
theorem loadings_from_covs_underidentified_witness :
    loadings_from_covs ["m1", "m2"] (fun _ _ => 1) "m1" 1
      = Except.error WAError.underidentifiedModel :=
  loadings_from_covs_underidentified ["m1", "m2"] (fun _ _ => 1) "m1" 1
    (by decide)

/-- Embedding of `SkillModel.sigma_weights`: a vector of `2 * nfac + 1` sigma
weights, all equal to `1 / (2 * (nfac + kappa))` except the first entry, which
is overwritten with `kappa / (nfac + kappa)`; the mean weights and the
covariance weights are the same vector. -/
def sigma_weights (nfac : ℕ) (kappa : ℚ) : List ℚ × List ℚ :=
  let s_weights_m :=
    kappa / (nfac + kappa) :: List.replicate (2 * nfac) (1 / (2 * (nfac + kappa)))
  (s_weights_m, s_weights_m)

/-- Embedding of `SkillModel.sigma_scaling_factor`: the square root of
`kappa + nfac`. -/
noncomputable def sigma_scaling_factor (nfac : ℕ) (kappa : ℝ) : ℝ :=
  Real.sqrt (kappa + nfac)

/-- Claim C3: for `nfac ≥ 1` and `kappa > 0` the sigma-weight vector has length
`2 * nfac + 1`, its center entry is `kappa / (nfac + kappa)`, every other entry
is `1 / (2 * (nfac + kappa))`, all entries are non-negative, the entries sum to
one, the mean weights equal the covariance weights, and the scaling factor is
`sqrt (nfac + kappa)`. -/
theorem sigma_weights_spec (nfac : ℕ) (kappa : ℚ)
    (hf : 1 ≤ nfac) (hk : 0 < kappa) :
    (sigma_weights nfac kappa).1.length = 2 * nfac + 1 ∧
    (sigma_weights nfac kappa).1.head? = some (kappa / (nfac + kappa)) ∧
    (∀ x ∈ (sigma_weights nfac kappa).1.tail, x = 1 / (2 * (nfac + kappa))) ∧
    (∀ x ∈ (sigma_weights nfac kappa).1, 0 ≤ x) ∧
    (sigma_weights nfac kappa).1.sum = 1 ∧
    (sigma_weights nfac kappa).2 = (sigma_weights nfac kappa).1 ∧
    sigma_scaling_factor nfac (kappa : ℝ) = Real.sqrt (nfac + kappa) := by
  have hpos : (0 : ℚ) < (nfac : ℚ) + kappa := by positivity
  refine ⟨?_, ?_, ?_, ?_, ?_, ?_, ?_⟩
  · simp [sigma_weights]
  · simp [sigma_weights]
  · intro x hx
    simp only [sigma_weights, List.tail_cons] at hx
    exact (List.eq_of_mem_replicate hx)
  · intro x hx
    simp only [sigma_weights, List.mem_cons] at hx
    rcases hx with hx | hx
    · subst hx
      exact div_nonneg hk.le hpos.le
    · rw [List.eq_of_mem_replicate hx]
      positivity
  · simp only [sigma_weights, List.sum_cons, List.sum_replicate, smul_eq_mul]
    field_simp
    ring
  · rfl
  · simp [sigma_scaling_factor, add_comm]

/-- Witness for claim C3 at `nfac = 1`, `kappa = 2`: the weights sum to one. -/
theorem sigma_weights_spec_witness :
    (sigma_weights 1 2).1.sum = 1 :=
  (sigma_weights_spec 1 2 (by norm_num) (by norm_num)).2.2.2.2.1

/-- Embedding of `SkillModel._general_params_slice`: from the current value of
the `param_counter` attribute, produce the slice of the next `length` elements
of the parameter vector and the incremented counter.  A slice is the pair of
its `start` and `stop` index. -/
def general_params_slice (counter length : ℕ) : (ℕ × ℕ) × ℕ :=
  ((counter, counter + length), counter + length)

/-- Sequencing of `_general_params_slice` calls as performed by
`SkillModel.params_slices`: given the list of requested lengths (one entry per
call, in call order) and the initial counter, return the allocated slices in
order. -/
def allocSlices : List ℕ → ℕ → List (ℕ × ℕ)
  | [], _ => []
  | l :: ls, c =>
    (general_params_slice c l).1 :: allocSlices ls (general_params_slice c l).2

/-- Sum of the first `i` entries of a list of lengths. -/
def sumTake (lens : List ℕ) (i : ℕ) : ℕ := (lens.take i).sum

/-- Embedding of `SkillModel.len_params`: the `stop` index of the last
allocated slice (0 when nothing is allocated). -/
def len_params (lens : List ℕ) : ℕ := ((allocSlices lens 0).getLastD (0, 0)).2

theorem allocSlices_length (lens : List ℕ) :
    ∀ c : ℕ, (allocSlices lens c).length = lens.length := by
  induction lens with
  | nil => intro c; rfl
  | cons l ls ih => intro c; simp [allocSlices, ih]

theorem allocSlices_getD (lens : List ℕ) :
    ∀ (c i : ℕ), i < lens.length →
      (allocSlices lens c).getD i (0, 0)
        = (c + sumTake lens i, c + sumTake lens (i + 1)) := by
  induction lens with
  | nil => intro c i h; simp at h
  | cons l ls ih =>
    intro c i h
    cases i with
    | zero => simp [allocSlices, general_params_slice, sumTake]
    | succ i =>
      have hi : i < ls.length := by simpa using h
      simp only [allocSlices, general_params_slice, List.getD_cons_succ]
      rw [ih (c + l) i hi]
      simp only [sumTake, List.take_succ_cons, List.sum_cons, Prod.mk.injEq]
      omega

theorem sumTake_mono (lens : List ℕ) :
    ∀ i j : ℕ, i ≤ j → sumTake lens i ≤ sumTake lens j := by
  induction lens with
  | nil => intro i j _; simp [sumTake]
  | cons l ls ih =>
    intro i j h
    cases i with
    | zero => simp [sumTake]
    | succ i =>
      cases j with
      | zero => omega
      | succ j =>
        simp only [sumTake, List.take_succ_cons, List.sum_cons]
        exact Nat.add_le_add_left (ih i j (by omega)) l

theorem sumTake_le_sum (lens : List ℕ) : ∀ i : ℕ, sumTake lens i ≤ lens.sum := by
  induction lens with
  | nil => intro i; simp [sumTake]
  | cons l ls ih =>
    intro i
    cases i with
    | zero => simp [sumTake]
    | succ i =>
      simp only [sumTake, List.take_succ_cons, List.sum_cons]
      exact Nat.add_le_add_left (ih i) l

theorem exists_sumTake_interval (lens : List ℕ) :
    ∀ x : ℕ, x < lens.sum →
      ∃ i, i < lens.length ∧ sumTake lens i ≤ x ∧ x < sumTake lens (i + 1) := by
  induction lens with
  | nil => intro x hx; simp at hx
  | cons l ls ih =>
    intro x hx
    by_cases hxl : x < l
    · refine ⟨0, by simp, by simp [sumTake], ?_⟩
      simpa [sumTake] using hxl
    · have hx2 : x - l < ls.sum := by
        simp only [List.sum_cons] at hx; omega
      obtain ⟨i, hi, h1, h2⟩ := ih (x - l) hx2
      refine ⟨i + 1, by simpa using hi, ?_, ?_⟩
      · simp only [sumTake, List.take_succ_cons, List.sum_cons] at h1 ⊢
        omega
      · simp only [sumTake, List.take_succ_cons, List.sum_cons] at h2 ⊢
        omega

theorem allocSlices_getLastD (lens : List ℕ) :
    ∀ (c : ℕ) (d : ℕ × ℕ),
      ((allocSlices lens c).getLastD d).2
        = if lens.isEmpty then d.2 else c + lens.sum := by
  induction lens with
  | nil => intro c d; simp [allocSlices]
  | cons l ls ih =>
    intro c d
    rw [show allocSlices (l :: ls) c
        = (c, c + l) :: allocSlices ls (c + l) from rfl]
    rw [List.getLastD_cons, ih]
    cases ls with
    | nil => simp
    | cons a as =>
      simp only [List.isEmpty_cons, List.sum_cons]
      simp only [if_neg (by simp : ¬(false = true))]
      omega

theorem len_params_eq_sum (lens : List ℕ) : len_params lens = lens.sum := by
  unfold len_params
  rw [allocSlices_getLastD]
  cases lens <;> simp

/-- Claim C7: the slices produced by the `params_slices` allocation are
consecutive, non-overlapping ranges starting at zero; their union covers
exactly the interval from 0 (inclusive) to `len_params` (exclusive); each
fresh slice begins where the previously allocated one stopped; and the total
length is the (deterministic) sum of the requested lengths. -/
theorem params_slices_partition (lens : List ℕ) :
    (allocSlices lens 0).length = lens.length ∧
    (∀ i, i < lens.length →
      (allocSlices lens 0).getD i (0, 0)
        = (sumTake lens i, sumTake lens (i + 1))) ∧
    (0 < lens.length → ((allocSlices lens 0).getD 0 (0, 0)).1 = 0) ∧
    (∀ i, i + 1 < lens.length →
      ((allocSlices lens 0).getD (i + 1) (0, 0)).1
        = ((allocSlices lens 0).getD i (0, 0)).2) ∧
    (∀ x, x < len_params lens ↔
      ∃ i, i < lens.length ∧
        ((allocSlices lens 0).getD i (0, 0)).1 ≤ x ∧
        x < ((allocSlices lens 0).getD i (0, 0)).2) ∧
    (∀ i j, i < lens.length → j < lens.length → i ≠ j → ∀ x,
      ((allocSlices lens 0).getD i (0, 0)).1 ≤ x →
      x < ((allocSlices lens 0).getD i (0, 0)).2 →
      ¬(((allocSlices lens 0).getD j (0, 0)).1 ≤ x ∧
        x < ((allocSlices lens 0).getD j (0, 0)).2)) ∧
    len_params lens = lens.sum := by
  have hget : ∀ i, i < lens.length →
      (allocSlices lens 0).getD i (0, 0)
        = (sumTake lens i, sumTake lens (i + 1)) := by
    intro i hi
    rw [allocSlices_getD lens 0 i hi]
    simp
  refine ⟨allocSlices_length lens 0, hget, ?_, ?_, ?_, ?_, len_params_eq_sum lens⟩
  · intro h
    rw [hget 0 h]
    simp [sumTake]
  · intro i h
    rw [hget (i + 1) h, hget i (by omega)]
  · intro x
    rw [len_params_eq_sum]
    constructor
    · intro hx
      obtain ⟨i, hi, h1, h2⟩ := exists_sumTake_interval lens x hx
      exact ⟨i, hi, by rw [hget i hi]; exact h1, by rw [hget i hi]; exact h2⟩
    · rintro ⟨i, hi, h1, h2⟩
      rw [hget i hi] at h2
      exact lt_of_lt_of_le h2 (sumTake_le_sum lens (i + 1))
  · intro i j hi hj hij x h1 h2
    rintro ⟨h3, h4⟩
    rw [hget i hi] at h1 h2
    rw [hget j hj] at h3 h4
    rcases Nat.lt_or_ge i j with hlt | hge
    · have : sumTake lens (i + 1) ≤ sumTake lens j := sumTake_mono lens _ _ (by omega)
      omega
    · have hlt : j < i := by omega
      have : sumTake lens (j + 1) ≤ sumTake lens i := sumTake_mono lens _ _ (by omega)
      omega

/-- Witness for claim C7 at `lens = [2, 3]`: the second slice starts where the
first one stopped and spans the next three indices. -/
theorem params_slices_partition_witness :
    (allocSlices [2, 3] 0).getD 1 (0, 0) = (sumTake [2, 3] 1, sumTake [2, 3] 2) :=
  (params_slices_partition [2, 3]).2.1 1 (by decide)

/-- Failure modes of the parameter encoding layer.  The failing length
`assert` in `SkillModel.expandparams` is the shape-mismatch failure of the
design document's error taxonomy. -/
inductive ParamsError where
  | shapeMismatch : ParamsError
deriving DecidableEq

/-- Description of one entry of `params_quants` as used by `expandparams`: the
number of scalar slots it occupies in the short and in the long parameter
vector, and the optional transformation applied when going from short to long
(present for the quantities listed in `to_transform`, absent for those that are
copied verbatim). -/
structure ParamQuant where
  shortLen : ℕ
  longLen : ℕ
  transform : Option (List ℚ → List ℚ)

/-- Reading `v[start:stop]` from a vector. -/
def extractSlice (v : List ℚ) (sl : ℕ × ℕ) : List ℚ :=
  (v.drop sl.1).take (sl.2 - sl.1)

/-- Writing `target[start:stop] = vals` into a vector, keeping its length. -/
def writeSlice (target : List ℚ) (sl : ℕ × ℕ) (vals : List ℚ) : List ℚ :=
  (List.range target.length).map (fun i =>
    if sl.1 ≤ i ∧ i < sl.2 then vals.getD (i - sl.1) 0 else target.getD i 0)

/-- Embedding of `SkillModel.expandparams`: compute the short and long slice
layouts, reject the input vector when its length differs from the short layout
length, and otherwise fill a zero-initialised long vector quantity by quantity,
either copying the short slice verbatim or passing it through the quantity's
transformation. -/
def expandparams (quants : List ParamQuant) (params : List ℚ) :
    Except ParamsError (List ℚ) :=
  let short_slices := allocSlices (quants.map (fun q => q.shortLen)) 0
  let long_slices := allocSlices (quants.map (fun q => q.longLen)) 0
  let short_len := (quants.map (fun q => q.shortLen)).sum
  let long_len := (quants.map (fun q => q.longLen)).sum
  if params.length = short_len then
    Except.ok (((short_slices.zip long_slices).zip quants).foldl
      (fun long_params x =>
        let vals := match x.2.transform with
          | none => extractSlice params x.1.1
          | some f => f (extractSlice params x.1.1)
        writeSlice long_params x.1.2 vals)
      (List.replicate long_len 0))
  else Except.error ParamsError.shapeMismatch

/-- Claim C2: `expandparams` fails with the shape-mismatch error if and only if
the length of the parameter vector differs from the layout length of the given
(short) params type, and a vector of exactly the layout length is never
rejected for its length. -/
theorem expandparams_shape_mismatch_iff (quants : List ParamQuant)
    (params : List ℚ) :
    (expandparams quants params = Except.error ParamsError.shapeMismatch ↔
      params.length ≠ (quants.map (fun q => q.shortLen)).sum) ∧
    (params.length = (quants.map (fun q => q.shortLen)).sum →
      ∃ v, expandparams quants params = Except.ok v) := by
  unfold expandparams
  by_cases h : params.length = (quants.map (fun q => q.shortLen)).sum
  · rw [if_pos h]
    exact ⟨by simp [h], fun _ => ⟨_, rfl⟩⟩
  · rw [if_neg h]
    exact ⟨by simp [h], fun hc => absurd hc h⟩

/-- Witness for claim C2: a short vector of exactly the layout length is
accepted by `expandparams`. -/
theorem expandparams_shape_mismatch_iff_witness :
    ∃ v, expandparams [⟨2, 3, none⟩] [5, 7] = Except.ok v :=
  (expandparams_shape_mismatch_iff [⟨2, 3, none⟩] [5, 7]).2 (by decide)

/-- Embedding of `SkillModel.params_slices` together with its handling of the
`param_counter` attribute: the method first assigns `param_counter = 0`
(ignoring any previous attribute state, which is why the incoming state is an
unused argument), then allocates one slice per `_general_params_slice` call,
and finally deletes the attribute (`del self.param_counter`), so the returned
attribute state is `none`. -/
def params_slices (lens : List ℕ) (_param_counter : Option ℕ) :
    List (ℕ × ℕ) × Option ℕ :=
  let counter : ℕ := 0
  (allocSlices lens counter, none)

/-- Claim C10: `params_slices` is deterministic and side-effect-free across
calls: whatever `param_counter` state the object carries on entry, the returned
slices are the same (those of a counter reset to zero), and no `param_counter`
attribute is left on the object. -/
theorem params_slices_deterministic (lens : List ℕ) (a b : Option ℕ) :
    (params_slices lens a).1 = (params_slices lens b).1 ∧
    (params_slices lens a).2 = none ∧
    (params_slices lens a).1 = allocSlices lens 0 :=
  ⟨rfl, rfl, rfl⟩

/-- Scalar log-sum-exp of a pair with hardness `h`, i.e. the soft maximum
`log (exp (h * a) + exp (h * b)) / h` used by `soft_clipping` (the source
column-stacks the two operands and calls `logsumexp` along the second axis). -/
noncomputable def logsumexp_pair (h a b : ℝ) : ℝ :=
  Real.log (Real.exp (h * a) + Real.exp (h * b)) / h

/-- Embedding of one entry of `likelihood_function.soft_clipping`: clip from
below by a soft maximum with `lower`, then clip from above by the soft minimum
with `upper`, written as a negated soft maximum of the negated operands. -/
noncomputable def soft_clipping_scalar
    (lower upper lower_hardness upper_hardness x : ℝ) : ℝ :=
  -(logsumexp_pair upper_hardness
      (-(logsumexp_pair lower_hardness x lower)) (-upper))

/-- Embedding of `likelihood_function.soft_clipping` on a flattened array (the
source flattens, transforms each entry, and restores the shape, so the
operation is elementwise). -/
noncomputable def soft_clipping
    (lower upper lower_hardness upper_hardness : ℝ) (arr : List ℝ) : List ℝ :=
  arr.map (soft_clipping_scalar lower upper lower_hardness upper_hardness)

theorem logsumexp_pair_mono_left (h c : ℝ) (hh : 0 < h) {x y : ℝ}
    (hxy : x ≤ y) : logsumexp_pair h x c ≤ logsumexp_pair h y c := by
  unfold logsumexp_pair
  rw [div_le_div_iff_of_pos_right hh]
  apply Real.log_le_log (by positivity)
  have hx : Real.exp (h * x) ≤ Real.exp (h * y) :=
    Real.exp_le_exp.mpr (mul_le_mul_of_nonneg_left hxy hh.le)
  linarith

theorem lt_logsumexp_pair_right (h : ℝ) (hh : 0 < h) (a b : ℝ) :
    b < logsumexp_pair h a b := by
  unfold logsumexp_pair
  rw [lt_div_iff₀ hh]
  have h1 : Real.exp (h * b) < Real.exp (h * a) + Real.exp (h * b) := by
    linarith [Real.exp_pos (h * a)]
  calc b * h = Real.log (Real.exp (h * b)) := by rw [Real.log_exp]; ring
  _ < _ := Real.log_lt_log (Real.exp_pos _) h1

theorem logsumexp_pair_lt_add (h m a b : ℝ) (hh : 0 < h)
    (ha : a < m) (hb : b < m) :
    logsumexp_pair h a b < m + Real.log 2 / h := by
  unfold logsumexp_pair
  have h1 : Real.exp (h * a) < Real.exp (h * m) :=
    Real.exp_lt_exp.mpr (mul_lt_mul_of_pos_left ha hh)
  have h2 : Real.exp (h * b) < Real.exp (h * m) :=
    Real.exp_lt_exp.mpr (mul_lt_mul_of_pos_left hb hh)
  have h4 : Real.log (Real.exp (h * a) + Real.exp (h * b))
      < Real.log (2 * Real.exp (h * m)) :=
    Real.log_lt_log (by positivity) (by linarith)
  rw [Real.log_mul two_ne_zero (Real.exp_ne_zero _), Real.log_exp] at h4
  rw [div_lt_iff₀ hh]
  have hmul : (m + Real.log 2 / h) * h = m * h + Real.log 2 := by
    field_simp
  rw [hmul]
  linarith

theorem soft_clipping_scalar_mono (lower upper h : ℝ) (hh : 0 < h)
    {x y : ℝ} (hxy : x ≤ y) :
    soft_clipping_scalar lower upper h h x
      ≤ soft_clipping_scalar lower upper h h y := by
  have h1 : logsumexp_pair h x lower ≤ logsumexp_pair h y lower :=
    logsumexp_pair_mono_left h lower hh hxy
  have h2 : logsumexp_pair h (-(logsumexp_pair h y lower)) (-upper)
      ≤ logsumexp_pair h (-(logsumexp_pair h x lower)) (-upper) :=
    logsumexp_pair_mono_left h (-upper) hh (neg_le_neg h1)
  unfold soft_clipping_scalar
  linarith

theorem soft_clipping_scalar_bounds (lower upper h : ℝ) (hh : 0 < h)
    (hlu : lower < upper) (x : ℝ) :
    lower - Real.log 2 / h < soft_clipping_scalar lower upper h h x ∧
    soft_clipping_scalar lower upper h h x < upper + Real.log 2 / h := by
  have hf : lower < logsumexp_pair h x lower := lt_logsumexp_pair_right h hh x lower
  constructor
  · have h5 : logsumexp_pair h (-(logsumexp_pair h x lower)) (-upper)
        < -lower + Real.log 2 / h :=
      logsumexp_pair_lt_add h (-lower) _ _ hh (by linarith) (by linarith)
    unfold soft_clipping_scalar
    linarith
  · have h6 : -upper < logsumexp_pair h (-(logsumexp_pair h x lower)) (-upper) :=
      lt_logsumexp_pair_right h hh _ _
    have hlog2 : 0 < Real.log 2 / h := div_pos (Real.log_pos one_lt_two) hh
    unfold soft_clipping_scalar
    linarith

/-- Claim C4: for positive hardness `h` and finite bounds `lower < upper`,
`soft_clipping` is monotonically non-decreasing in every entry of its input
array, and every output entry lies in the open interval from
`lower - log 2 / h` to `upper + log 2 / h`. -/
theorem soft_clipping_monotone_bounded (lower upper h : ℝ)
    (hh : 0 < h) (hlu : lower < upper) :
    (∀ x y : ℝ, x ≤ y →
      soft_clipping_scalar lower upper h h x
        ≤ soft_clipping_scalar lower upper h h y) ∧
    (∀ arr brr : List ℝ, List.Forall₂ (· ≤ ·) arr brr →
      List.Forall₂ (· ≤ ·) (soft_clipping lower upper h h arr)
        (soft_clipping lower upper h h brr)) ∧
    (∀ arr : List ℝ, ∀ y ∈ soft_clipping lower upper h h arr,
      lower - Real.log 2 / h < y ∧ y < upper + Real.log 2 / h) := by
  refine ⟨fun x y hxy => soft_clipping_scalar_mono lower upper h hh hxy, ?_, ?_⟩
  · intro arr brr hab
    induction hab with
    | nil => exact List.Forall₂.nil
    | cons hab htail ih =>
      simp only [soft_clipping, List.map_cons]
      exact List.Forall₂.cons
        (soft_clipping_scalar_mono lower upper h hh hab) ih
  · intro arr y hy
    simp only [soft_clipping, List.mem_map] at hy
    obtain ⟨x, _, rfl⟩ := hy
    exact soft_clipping_scalar_bounds lower upper h hh hlu x

/-- Witness for claim C4 with bounds 0 and 1 and hardness 1: monotonicity at
the inputs 0 and 1. -/
theorem soft_clipping_monotone_bounded_witness :
    soft_clipping_scalar 0 1 1 1 0 ≤ soft_clipping_scalar 0 1 1 1 1 :=
  (soft_clipping_monotone_bounded 0 1 1 (by norm_num) (by norm_num)).1 0 1
    (by norm_num)

/-- One iteration of the transition-variance accumulation loop of
`SkillModel.estimate_params_wa` for one factor: when stage `s` declares no new
transition coefficients (`new_trans_coeffs[s] == 0`), the estimate of stage `s`
is added onto stage `s - 1` and the entry of stage `s` is invalidated (`NaN`,
modelled as `none`); otherwise the table is unchanged.  `df` is the column of
`trans_var_df` for the factor. -/
def waAccumStep (new_info : ℕ → ℤ) (df : ℕ → Option ℚ) (s : ℕ) :
    ℕ → Option ℚ :=
  if new_info s = 0 then
    fun j =>
      if j = s then none
      else if j + 1 = s then
        match df (s - 1), df s with
        | some a, some b => some (a + b)
        | _, _ => none
      else df j
  else df

/-- Run `waAccumStep` for the stages `n - 1, n - 2, ..., 0` in this order,
mirroring `for s in reversed(self.stages)`. -/
def waAccumFrom (new_info : ℕ → ℤ) : (ℕ → Option ℚ) → ℕ → (ℕ → Option ℚ)
  | df, 0 => df
  | df, n + 1 => waAccumFrom new_info (waAccumStep new_info df n) n

/-- Embedding of the transition-variance accumulation of
`SkillModel.estimate_params_wa` for one factor with a non-constant transition:
start from the per-stage weighted estimates `tv` and fold the equality-
constraint accumulation over all stages in reversed order. -/
def accumulate_trans_vars (new_info : ℕ → ℤ) (tv : ℕ → ℚ) (nstages : ℕ) :
    ℕ → Option ℚ :=
  waAccumFrom new_info (fun s => some (tv s)) nstages

/-- Run `waAccumStep` for the stages `m + d - 1, ..., m` in this order (the
upper part of the reversed loop). -/
def waAccumDown (new_info : ℕ → ℤ) : (ℕ → Option ℚ) → ℕ → ℕ → (ℕ → Option ℚ)
  | df, _, 0 => df
  | df, m, d + 1 => waAccumDown new_info (waAccumStep new_info df (m + d)) m d

theorem waAccumFrom_untouched (new_info : ℕ → ℤ) :
    ∀ (n : ℕ) (df : ℕ → Option ℚ) (j : ℕ),
      (∀ t, t < n → new_info t = 0 → t ≠ j ∧ t ≠ j + 1) →
      waAccumFrom new_info df n j = df j := by
  intro n
  induction n with
  | zero => intro df j _; rfl
  | succ n ih =>
    intro df j hcond
    show waAccumFrom new_info (waAccumStep new_info df n) n j = df j
    rw [ih (waAccumStep new_info df n) j (fun t ht => hcond t (by omega))]
    unfold waAccumStep
    by_cases h0 : new_info n = 0
    · obtain ⟨hne1, hne2⟩ := hcond n (by omega) h0
      simp only [if_pos h0]
      rw [if_neg (by omega : ¬(j = n)), if_neg (by omega : ¬(j + 1 = n))]
    · simp only [if_neg h0]

theorem waAccumFrom_split (new_info : ℕ → ℤ) :
    ∀ (d : ℕ) (df : ℕ → Option ℚ) (m : ℕ),
      waAccumFrom new_info df (m + d)
        = waAccumFrom new_info (waAccumDown new_info df m d) m := by
  intro d
  induction d with
  | zero => intro df m; rfl
  | succ d ih =>
    intro df m
    show waAccumFrom new_info (waAccumStep new_info df (m + d)) (m + d) = _
    rw [ih (waAccumStep new_info df (m + d)) m]
    rfl

theorem waAccumDown_untouched (new_info : ℕ → ℤ) :
    ∀ (d : ℕ) (df : ℕ → Option ℚ) (m j : ℕ),
      (∀ t, m ≤ t → t < m + d → new_info t = 0 → j + 1 < t) →
      waAccumDown new_info df m d j = df j := by
  intro d
  induction d with
  | zero => intro df m j _; rfl
  | succ d ih =>
    intro df m j hcond
    show waAccumDown new_info (waAccumStep new_info df (m + d)) m d j = df j
    rw [ih (waAccumStep new_info df (m + d)) m j
      (fun t h1 h2 => hcond t h1 (by omega))]
    unfold waAccumStep
    by_cases h0 : new_info (m + d) = 0
    · have hlt := hcond (m + d) (by omega) (by omega) h0
      simp only [if_pos h0]
      rw [if_neg (by omega : ¬(j = m + d)), if_neg (by omega : ¬(j + 1 = m + d))]
    · simp only [if_neg h0]

theorem waAccumFrom_chain (new_info : ℕ → ℤ) (s : ℕ) (hs : new_info s ≠ 0) :
    ∀ (k : ℕ) (df : ℕ → Option ℚ) (v : ℕ → ℚ),
      (∀ j, s < j → j ≤ s + k → new_info j = 0) →
      (∀ j, s ≤ j → j ≤ s + k → df j = some (v j)) →
      waAccumFrom new_info df (s + k + 1) s
        = some (∑ j ∈ Finset.Icc s (s + k), v j) := by
  intro k
  induction k with
  | zero =>
    intro df v _ hdf
    show waAccumFrom new_info (waAccumStep new_info df s) s s = _
    have hstep : waAccumStep new_info df s = df := by
      unfold waAccumStep; rw [if_neg hs]
    rw [waAccumFrom_untouched new_info s (waAccumStep new_info df s) s
      (fun t ht _ => ⟨by omega, by omega⟩)]
    rw [hstep, hdf s le_rfl (by omega)]
    simp
  | succ k ih =>
    intro df v hchain hdf
    show waAccumFrom new_info
      (waAccumStep new_info df (s + k + 1)) (s + k + 1) s = _
    have h0 : new_info (s + k + 1) = 0 := hchain (s + k + 1) (by omega) (by omega)
    have hdf2 : ∀ j, s ≤ j → j ≤ s + k →
        waAccumStep new_info df (s + k + 1) j
          = some ((fun j => if j = s + k then v (s + k) + v (s + k + 1)
              else v j) j) := by
      intro j h1 h2
      unfold waAccumStep
      simp only [if_pos h0]
      by_cases hj : j = s + k
      · subst hj
        rw [if_neg (by omega : ¬(s + k = s + k + 1)),
          if_pos (rfl : s + k + 1 = s + k + 1)]
        rw [show s + k + 1 - 1 = s + k from rfl]
        rw [hdf (s + k) (by omega) (by omega),
          hdf (s + k + 1) (by omega) (by omega)]
        simp
      · rw [if_neg (by omega : ¬(j = s + k + 1)),
          if_neg (by omega : ¬(j + 1 = s + k + 1)),
          hdf j h1 (by omega)]
        simp [hj]
    rw [ih (waAccumStep new_info df (s + k + 1)) _
      (fun j h1 h2 => hchain j h1 (by omega)) hdf2]
    congr 1
    have hsplit : ∑ j ∈ Finset.Icc s (s + k),
        (fun j => if j = s + k then v (s + k) + v (s + k + 1) else v j) j
        = ∑ j ∈ Finset.Icc s (s + k),
          (v j + if j = s + k then v (s + k + 1) else 0) := by
      refine Finset.sum_congr rfl (fun j _ => ?_)
      by_cases hj : j = s + k
      · subst hj; simp
      · simp [hj]
    rw [hsplit, Finset.sum_add_distrib, Finset.sum_ite_eq' (Finset.Icc s (s + k))]
    rw [if_pos (by simp [Finset.mem_Icc] : s + k ∈ Finset.Icc s (s + k))]
    rw [show s + (k + 1) = (s + k) + 1 from rfl,
      Finset.sum_Icc_succ_top (by omega : s ≤ s + k + 1) v]

/-- Claim C5: in the WA estimator, for a factor with a non-constant transition
and a maximal run of stages `s + 1, ..., s + k` that are forced equal to their
predecessor (`new_trans_coeffs == 0`), the final transition shock variance kept
for the earlier stage `s` (the value subsequently written into the parameter
vector) is the sum, not the average, of the per-stage weighted estimates of all
the consecutive equality-constrained stages. -/
theorem wa_trans_var_stage_sum (new_info : ℕ → ℤ) (tv : ℕ → ℚ)
    (nstages s k : ℕ)
    (hhead : new_info s ≠ 0)
    (hchain : ∀ j, s < j → j ≤ s + k → new_info j = 0)
    (hub : s + k < nstages)
    (hbound : s + k + 1 = nstages ∨ new_info (s + k + 1) ≠ 0) :
    accumulate_trans_vars new_info tv nstages s
      = some (∑ j ∈ Finset.Icc s (s + k), tv j) := by
  unfold accumulate_trans_vars
  have hns : nstages = (s + k + 1) + (nstages - (s + k + 1)) := by omega
  rw [hns, waAccumFrom_split new_info (nstages - (s + k + 1))
    (fun t => some (tv t)) (s + k + 1)]
  apply waAccumFrom_chain new_info s hhead k _ tv hchain
  intro j hj1 hj2
  rw [waAccumDown_untouched new_info (nstages - (s + k + 1))
    (fun t => some (tv t)) (s + k + 1) j ?_]
  intro t ht1 ht2 ht0
  by_cases hte : t = s + k + 1
  · subst hte
    rcases hbound with hb | hb
    · omega
    · exact absurd ht0 hb
  · omega

/-- Witness for claim C5: three stages, only stage 0 with new coefficients,
stages 1 and 2 forced equal; the value kept at stage 0 is the sum of all three
per-stage estimates. -/
theorem wa_trans_var_stage_sum_witness :
    accumulate_trans_vars (fun t => if t = 0 then 1 else 0)
        (fun t => (t : ℚ) + 1) 3 0
      = some (∑ j ∈ Finset.Icc (0 : ℕ) (0 + 2), ((j : ℚ) + 1)) :=
  wa_trans_var_stage_sum (fun t => if t = 0 then 1 else 0)
    (fun t => (t : ℚ) + 1) 3 0 2 (by decide)
    (fun j hj1 _ => by simp only [if_neg (show ¬(j = 0) by omega)])
    (by omega) (Or.inl rfl)

/-- Embedding of `SkillModel._params_slice_for_trans_coeffs` for one factor
with `w` coefficients per stage (the value of the `nr_coeffs` function for the
factor): starting from counter `c0`, process the stages in ascending order; a
stage whose `new_trans_coeffs` entry is 1 or -1 allocates a fresh slice via
`_general_params_slice`, any other stage appends the slice object of the
previous stage (`slices[f][s - 1]`, the last element built so far).  Returns
the per-stage slices and the final counter. -/
def params_slice_for_trans_coeffs (w : ℕ) (new_info : ℕ → ℤ) (c0 : ℕ) :
    ℕ → List (ℕ × ℕ) × ℕ
  | 0 => ([], c0)
  | s + 1 =>
    let p := params_slice_for_trans_coeffs w new_info c0 s
    if new_info s = 1 ∨ new_info s = -1 then
      (p.1 ++ [(general_params_slice p.2 w).1], (general_params_slice p.2 w).2)
    else
      (p.1 ++ [p.1.getD (s - 1) (0, 0)], p.2)

theorem trans_slices_succ (w : ℕ) (new_info : ℕ → ℤ) (c0 s : ℕ) :
    (params_slice_for_trans_coeffs w new_info c0 (s + 1)).1
      = (params_slice_for_trans_coeffs w new_info c0 s).1 ++
        [if new_info s = 1 ∨ new_info s = -1 then
            (general_params_slice
              (params_slice_for_trans_coeffs w new_info c0 s).2 w).1
          else (params_slice_for_trans_coeffs w new_info c0 s).1.getD
            (s - 1) (0, 0)] := by
  by_cases hb : new_info s = 1 ∨ new_info s = -1
  · simp only [params_slice_for_trans_coeffs, if_pos hb]
  · simp only [params_slice_for_trans_coeffs, if_neg hb]

theorem trans_slices_length (w : ℕ) (new_info : ℕ → ℤ) (c0 : ℕ) :
    ∀ n, (params_slice_for_trans_coeffs w new_info c0 n).1.length = n := by
  intro n
  induction n with
  | zero => rfl
  | succ n ih =>
    rw [trans_slices_succ]
    simp [ih]

theorem trans_slices_stable (w : ℕ) (new_info : ℕ → ℤ) (c0 : ℕ) :
    ∀ m n, n ≤ m → ∀ j, j < n →
      (params_slice_for_trans_coeffs w new_info c0 m).1.getD j (0, 0)
        = (params_slice_for_trans_coeffs w new_info c0 n).1.getD j (0, 0) := by
  intro m
  induction m with
  | zero => intro n hn j hj; exact absurd hj (by omega)
  | succ m ih =>
    intro n hn j hj
    rcases Nat.eq_or_lt_of_le hn with he | hl
    · rw [he]
    · have hnm : n ≤ m := by omega
      rw [← ih n hnm j hj, trans_slices_succ]
      exact List.getD_append _ _ _ _ (by rw [trans_slices_length]; omega)

/-- Claim C6: for every stage `s ≥ 1` whose `new_trans_coeffs` entry is
neither 1 nor -1, the slice assigned to stage `s` is the very slice of stage
`s - 1` (same start and stop), so the transition coefficients parsed from any
parameter vector are identical entrywise for the two stages. -/
theorem trans_coeffs_slice_aliasing (w : ℕ) (new_info : ℕ → ℤ)
    (c0 nstages s : ℕ) (h1 : 1 ≤ s) (h2 : s < nstages)
    (hflag1 : new_info s ≠ 1) (hflag2 : new_info s ≠ -1) :
    ((params_slice_for_trans_coeffs w new_info c0 nstages).1.getD s (0, 0)
      = (params_slice_for_trans_coeffs w new_info c0 nstages).1.getD
          (s - 1) (0, 0)) ∧
    (∀ params : List ℚ,
      extractSlice params
          ((params_slice_for_trans_coeffs w new_info c0 nstages).1.getD
            s (0, 0))
        = extractSlice params
            ((params_slice_for_trans_coeffs w new_info c0 nstages).1.getD
              (s - 1) (0, 0))) := by
  have hlen : (params_slice_for_trans_coeffs w new_info c0 s).1.length = s :=
    trans_slices_length w new_info c0 s
  have key : (params_slice_for_trans_coeffs w new_info c0 nstages).1.getD
        s (0, 0)
      = (params_slice_for_trans_coeffs w new_info c0 nstages).1.getD
          (s - 1) (0, 0) := by
    rw [trans_slices_stable w new_info c0 nstages (s + 1) (by omega) s
        (by omega),
      trans_slices_stable w new_info c0 nstages (s + 1) (by omega) (s - 1)
        (by omega),
      trans_slices_succ]
    rw [List.getD_append_right _ _ _ _ (by rw [hlen])]
    rw [List.getD_append _ _ _ _ (by rw [hlen]; omega)]
    rw [hlen, Nat.sub_self]
    rw [if_neg (by push_neg; exact ⟨hflag1, hflag2⟩)]
    rfl
  exact ⟨key, fun params => by rw [key]⟩

/-- Witness for claim C6: two stages, the second declares no new coefficients
and aliases the slice of the first. -/
theorem trans_coeffs_slice_aliasing_witness :
    (params_slice_for_trans_coeffs 2 (fun t => if t = 0 then 1 else 0)
        0 2).1.getD 1 (0, 0)
      = (params_slice_for_trans_coeffs 2 (fun t => if t = 0 then 1 else 0)
          0 2).1.getD 0 (0, 0) :=
  (trans_coeffs_slice_aliasing 2 (fun t => if t = 0 then 1 else 0) 0 2 1
    (by omega) (by omega) (by decide) (by decide)).1

/-- Events of the Kalman recursion driven by `_log_likelihood_jax`: one update
per measurement (indexed by its position `k` in the stacked update list) and
one predict per period that performs one. -/
inductive FilterEvent where
  | update : ℕ → FilterEvent
  | predict : ℕ → FilterEvent
deriving DecidableEq

/-- Trace of the period loop of `_log_likelihood_jax` over the remaining
periods `ps`, with `k` the index of the next update: for each period, first
its `nmeas` updates, then a predict exactly when the period differs from the
last period of the model. -/
def likelihood_trace_from (last : ℕ) (nmeas : ℕ → ℕ) :
    List ℕ → ℕ → List FilterEvent
  | [], _ => []
  | t :: ts, k =>
    ((List.range (nmeas t)).map (fun j => FilterEvent.update (k + j))) ++
    (if t ≠ last then [FilterEvent.predict t] else []) ++
    likelihood_trace_from last nmeas ts (k + nmeas t)

/-- Trace of the whole recursion of `_log_likelihood_jax`: the period loop
starting at update index 0, comparing each period against the last entry of
the period labels. -/
def likelihood_trace (periods : List ℕ) (nmeas : ℕ → ℕ) : List FilterEvent :=
  likelihood_trace_from (periods.getLastD 0) nmeas periods 0

theorem predict_mem_trace_from (last : ℕ) (nmeas : ℕ → ℕ) (t : ℕ) :
    ∀ (ps : List ℕ) (k : ℕ),
      FilterEvent.predict t ∈ likelihood_trace_from last nmeas ps k ↔
        t ∈ ps ∧ t ≠ last := by
  intro ps
  induction ps with
  | nil =>
    intro k
    simp [likelihood_trace_from]
  | cons p ts ih =>
    intro k
    simp only [likelihood_trace_from, List.mem_append, List.mem_map,
      List.mem_range, List.mem_cons]
    constructor
    · rintro ((⟨j, hj, hup⟩ | hmid) | htail)
      · exact absurd hup (by simp)
      · by_cases hpl : p = last
        · rw [if_neg (not_not_intro hpl)] at hmid
          exact absurd hmid (List.not_mem_nil _)
        · rw [if_pos hpl] at hmid
          simp only [List.mem_singleton, FilterEvent.predict.injEq] at hmid
          exact ⟨Or.inl hmid, by rw [hmid]; exact hpl⟩
      · obtain ⟨h1, h2⟩ := (ih (k + nmeas p)).mp htail
        exact ⟨Or.inr h1, h2⟩
    · rintro ⟨hp | hts, hne⟩
      · subst hp
        left; right
        rw [if_pos hne]
        simp
      · right
        exact (ih (k + nmeas p)).mpr ⟨hts, hne⟩

/-- Claim C8: in the recursion of `_log_likelihood_jax` over a non-empty list
of periods, a predict step follows the updates of period `t` if and only if
`t` is not the last period; in particular no predict ever follows the last
period's updates. -/
theorem predict_iff_not_last (periods : List ℕ) (nmeas : ℕ → ℕ) (t : ℕ)
    (_hne : periods ≠ []) :
    (FilterEvent.predict t ∈ likelihood_trace periods nmeas ↔
      t ∈ periods ∧ t ≠ periods.getLastD 0) ∧
    FilterEvent.predict (periods.getLastD 0) ∉ likelihood_trace periods nmeas := by
  refine ⟨predict_mem_trace_from _ nmeas t periods 0, fun hmem => ?_⟩
  obtain ⟨_, h2⟩ := (predict_mem_trace_from _ nmeas _ periods 0).mp hmem
  exact h2 rfl

/-- Witness for claim C8 on a two-period model with one measurement per
period: period 0 predicts because it is not the last period. -/
theorem predict_iff_not_last_witness :
    FilterEvent.predict 0 ∈ likelihood_trace [0, 1] (fun _ => 1) ↔
      0 ∈ [0, 1] ∧ 0 ≠ [0, 1].getLastD 0 :=
  (predict_iff_not_last [0, 1] (fun _ => 1) 0 (by simp)).1

/-- State carried through the update loop of `_log_likelihood_jax`: the state
means, the upper-Cholesky covariance factors, the log mixture weights and the
rows of the log-likelihood contribution matrix. -/
structure KFState (S C W L : Type) where
  states : S
  chols : C
  weights : W
  loglikes : List L

/-- Embedding of one iteration of the update loop of `_log_likelihood_jax`:
`kalman_update` (abstract here, it lives in `kalman_filters.py`) returns new
states, new upper Cholesky factors, new weights and the log-likelihood row of
update `k`; the row is stored, the weights are always adopted, and the states
and Cholesky factors are adopted only when the purpose of the update is
"measurement". -/
def kalman_update_step {S C W L : Type}
    (kalman_update : ℕ → S → C → W → S × C × W × L)
    (purpose : String) (k : ℕ) (st : KFState S C W L) : KFState S C W L :=
  let res := kalman_update k st.states st.chols st.weights
  { states := if purpose = "measurement" then res.1 else st.states,
    chols := if purpose = "measurement" then res.2.1 else st.chols,
    weights := res.2.2.1,
    loglikes := st.loglikes.set k res.2.2.2 }

/-- Claim C9: for an update whose purpose is not "measurement" (for example an
anchoring update), the states and the upper-Cholesky factors carried into the
next step are exactly the ones from before the update, while the log mixture
weights and the row `k` of the log-likelihood contributions are replaced by
the newly computed values. -/
theorem nonmeasurement_update_frame {S C W L : Type}
    (ku : ℕ → S → C → W → S × C × W × L)
    (purpose : String) (k : ℕ) (st : KFState S C W L)
    (h : purpose ≠ "measurement") :
    (kalman_update_step ku purpose k st).states = st.states ∧
    (kalman_update_step ku purpose k st).chols = st.chols ∧
    (kalman_update_step ku purpose k st).weights
      = (ku k st.states st.chols st.weights).2.2.1 ∧
    (kalman_update_step ku purpose k st).loglikes
      = st.loglikes.set k (ku k st.states st.chols st.weights).2.2.2 := by
  unfold kalman_update_step
  simp [h]

/-- Witness for claim C9: an anchoring update leaves the states unchanged. -/
theorem nonmeasurement_update_frame_witness :
    (kalman_update_step (fun _ s c w => (s + 1, c + 1, w + 1, (42 : ℕ)))
        "anchoring" 0 (⟨0, 0, 0, [0]⟩ : KFState ℕ ℕ ℕ ℕ)).states = 0 :=
  (nonmeasurement_update_frame (fun _ s c w => (s + 1, c + 1, w + 1, (42 : ℕ)))
    "anchoring" 0 (⟨0, 0, 0, [0]⟩ : KFState ℕ ℕ ℕ ℕ) (by decide)).1
